import Mathlib

/-!
Verification development for the speech-to-text pad (src/script.js).

The core logic of the program is embedded shallowly:

* `smartFormat` embeds the `smartFormat` function (src/script.js lines 31-68):
  five case-insensitive whole-word keyword substitutions, removal of spaces and
  tabs before `, . ! ?`, insertion of a space after `, . ! ?` when a
  non-whitespace character follows, per-line trimming, sentence capitalization,
  and a final trim.  Each JavaScript `String.replace` with a global regex is
  embedded as a left-to-right scanner over `List Char` that, after a match,
  resumes scanning after the matched text, exactly as the regex engine does.
* `PadState` holds the module-level mutable state: `finalText`, the textarea
  contents (`textOutput.value`) as `display`, and the `notes` array.
* `applyBatch` embeds the `recognition.onresult` handler (lines 109-136),
  `startListening` the handler at lines 263-272, `resetTranscript` lines
  166-170, `saveOp`/`saveNote` the `saveCurrentNote` function (lines 245-260),
  `deleteNote`/`deletePad` the delete-button handler (`notes.splice(index, 1)`,
  lines 223-228), and `sendToPad` the "Send to pad" handler (lines 208-221).
* `Reachable` is the set of states reachable from the initial state by the
  public operations.

JavaScript specifics modelled explicitly: `\s` is the whitespace class `isWS`,
`\b` is a boundary between a `[A-Za-z0-9_]` character and anything else
(`isWordChar`), `String.prototype.trim` is `jsTrim`, and string truthiness
(`if (interimRaw)`, `finalText ? _ : _`) is emptiness testing.
-/

namespace STTPad

/-- ASCII lowercase letter `[a-z]`. -/
def isLowerAZ (c : Char) : Bool := 'a' ≤ c && c ≤ 'z'

/-- ASCII uppercase letter `[A-Z]`. -/
def isUpperAZ (c : Char) : Bool := 'A' ≤ c && c ≤ 'Z'

/-- ASCII lowercasing, as applied by a case-insensitive regex match. -/
def lowerChar (c : Char) : Char := if isUpperAZ c then Char.ofNat (c.toNat + 32) else c

/-- ASCII uppercasing, as in `letter.toUpperCase()` for a `[a-z]` letter. -/
def upChar (c : Char) : Char := if isLowerAZ c then Char.ofNat (c.toNat - 32) else c

/-- JavaScript regex `\w` (`[A-Za-z0-9_]`), the class on which `\b` is based. -/
def isWordChar (c : Char) : Bool :=
  isLowerAZ c || isUpperAZ c || ('0' ≤ c && c ≤ '9') || c = '_'

/-- The punctuation class `[,\.!?]` of the spacing regexes. -/
def isPunct (c : Char) : Bool := c = ',' || c = '.' || c = '!' || c = '?'

/-- The sentence-ending class `[\.\!\?]` of the capitalization regex. -/
def isSentPunct (c : Char) : Bool := c = '.' || c = '!' || c = '?'

/-- The class `[ \t]` used before punctuation. -/
def isSpaceTab (c : Char) : Bool := c = ' ' || c = '\t'

/-- JavaScript whitespace `\s` (also the class removed by `String.trim`):
space, tab, line feed, carriage return, vertical tab, form feed, no-break
space and the BOM. -/
def isWS (c : Char) : Bool :=
  c = ' ' || c = '\t' || c = '\n' || c = '\r' ||
  c.toNat = 11 || c.toNat = 12 || c.toNat = 0xa0 || c.toNat = 0xfeff

/-- Drop leading JavaScript whitespace. -/
def ltrim (l : List Char) : List Char := l.dropWhile isWS

/-- Drop trailing JavaScript whitespace. -/
def rtrim (l : List Char) : List Char := (l.reverse.dropWhile isWS).reverse

/-- `String.prototype.trim` on character lists. -/
def jsTrimL (l : List Char) : List Char := rtrim (ltrim l)

/-- `String.prototype.trim`. -/
def jsTrim (s : String) : String := ⟨jsTrimL s.data⟩

/-- Case-insensitive match of a (lowercase) pattern against a prefix of the
input, as a case-insensitive regex matches its literal characters. -/
def matchCI : List Char → List Char → Bool
  | [], _ => true
  | _ :: _, [] => false
  | p :: ps, c :: cs => p == lowerChar c && matchCI ps cs

/-- `\b` holds after a match of length `n` at the head of `l`: the next
character, if any, is not a word character (all keywords end in a letter). -/
def noWordAt (l : List Char) (n : Nat) : Bool :=
  match l.drop n with
  | [] => true
  | c :: _ => !isWordChar c

/-- Try the alternatives of one keyword regex at the current position, in the
regex's alternation order.  `prevW` says whether the previous input character
is a word character; since every keyword starts with a letter, `\b` fails
there when `prevW` is set.  Returns the length of the first alternative that
matches with a trailing `\b`. -/
def findMatch (alts : List (List Char)) (prevW : Bool) (l : List Char) : Option Nat :=
  if prevW then none
  else alts.findSome? fun a =>
    if matchCI a l && noWordAt l a.length then some a.length else none

/-- The scanner for one `t.replace(re, to)` with a global, case-insensitive,
whole-word regex: scan left to right; on a match emit the replacement and skip
the matched text (`k` counts characters still to skip; every keyword ends in a
letter, so the word-flag after a skip is `true`); otherwise emit the character
and move on. -/
def subA (alts : List (List Char)) (repl : List Char) : Nat → Bool → List Char → List Char
  | _, _, [] => []
  | k+1, _, _ :: cs => subA alts repl k true cs
  | 0, prevW, c :: cs =>
    match findMatch alts prevW (c :: cs) with
    | some n => repl ++ subA alts repl (n - 1) true cs
    | none => c :: subA alts repl 0 (isWordChar c) cs

/-- One keyword substitution pass over a whole string. -/
def subOne (alts : List (List Char)) (repl : List Char) (l : List Char) : List Char :=
  subA alts repl 0 false l

/-- `/\bcomma\b/gi`. -/
def commaPat : List (List Char) := ["comma".data]

/-- `/\bperiod\b|\bfull stop\b/gi`. -/
def periodPat : List (List Char) := ["period".data, "full stop".data]

/-- `/\bquestion mark\b/gi`. -/
def questionPat : List (List Char) := ["question mark".data]

/-- `/\bexclamation (?:mark|point)\b/gi`. -/
def exclamPat : List (List Char) := ["exclamation mark".data, "exclamation point".data]

/-- `/\bnew line\b|\bnewline\b/gi`. -/
def newlinePat : List (List Char) := ["new line".data, "newline".data]

/-- The five keyword substitutions of `smartFormat`, applied in source order
(comma, period/full stop, question mark, exclamation, new line). -/
def applySubs (l : List Char) : List Char :=
  subOne newlinePat ['\n']
    (subOne exclamPat ['!']
      (subOne questionPat ['?']
        (subOne periodPat ['.']
          (subOne commaPat [','] l))))

/-- Does a run of `[ \t]` followed by one of `, . ! ?` start here?  Used to
decide whether the current space/tab belongs to a run removed by
`t.replace(/[ \t]+([,\.!?])/g, "$1")`. -/
def afterSpacesPunct : List Char → Bool
  | [] => false
  | c :: cs => if isSpaceTab c then afterSpacesPunct cs else isPunct c

/-- `t.replace(/[ \t]+([,\.!?])/g, "$1")`: delete every maximal `[ \t]` run
that is immediately followed by punctuation. -/
def rmSpaceBefore : List Char → List Char
  | [] => []
  | c :: cs =>
    if isSpaceTab c && afterSpacesPunct cs then rmSpaceBefore cs
    else c :: rmSpaceBefore cs

/-- Is the head of the list a non-whitespace character (`[^\s\n]`)? -/
def headNotWS : List Char → Bool
  | [] => false
  | c :: _ => !isWS c

/-- Scanner for `t.replace(/([,\.!?])([^\s\n])/g, "$1 $2")`.  `blocked` marks a
character that was the second character of the previous match, which the regex
engine does not reconsider as a match start. -/
def saAux : Bool → List Char → List Char
  | _, [] => []
  | blocked, c :: cs =>
    if !blocked && isPunct c && headNotWS cs then c :: ' ' :: saAux true cs
    else c :: saAux false cs

/-- Insert a space after punctuation followed by a non-whitespace character. -/
def spaceAfter (l : List Char) : List Char := saAux false l

/-- `t.split("\n").map(line => line.trim()).join("\n")`, as a single pass:
`buf` holds the current line (reversed); each completed line is trimmed. -/
def plt (buf : List Char) : List Char → List Char
  | [] => jsTrimL buf.reverse
  | c :: cs => if c = '\n' then jsTrimL buf.reverse ++ '\n' :: plt [] cs
               else plt (c :: buf) cs

/-- Trim each line, preserving the line breaks. -/
def perLineTrim (l : List Char) : List Char := plt [] l

/-- State of the capitalization scan `/(^|[\.\!\?]\s+)([a-z])/g`: `afterPunct`
right after `. ! ?`, `afterWS` after `. ! ?` plus at least one whitespace
character (where a lowercase letter is capitalized). -/
inductive CapSt
  | other
  | afterPunct
  | afterWS
deriving DecidableEq, BEq, Repr

/-- State transition of the capitalization scan on reading one character. -/
def capNext (st : CapSt) (c : Char) : CapSt :=
  if isSentPunct c then .afterPunct
  else if isWS c && (st == .afterPunct || st == .afterWS) then .afterWS
  else .other

/-- The `[\.\!\?]\s+([a-z])` part of the capitalization pass. -/
def capA (st : CapSt) : List Char → List Char
  | [] => []
  | c :: cs =>
    (if st == CapSt.afterWS && isLowerAZ c then upChar c else c) :: capA (capNext st c) cs

/-- `t.replace(/(^|[\.\!\?]\s+)([a-z])/g, ...)`: uppercase a lowercase letter
at the start of the string, and after sentence punctuation plus whitespace. -/
def capitalize : List Char → List Char
  | [] => []
  | c :: cs => if isLowerAZ c then upChar c :: capA CapSt.other cs
               else capA CapSt.other (c :: cs)

/-- The whole `smartFormat` pipeline on character lists. -/
def smartFormatL (l : List Char) : List Char :=
  jsTrimL (capitalize (perLineTrim (spaceAfter (rmSpaceBefore (applySubs l)))))

/-- `smartFormat(text)` from src/script.js: `if (!text) return ""` (only the
empty string is falsy here), then the six-step pipeline. -/
def smartFormat (s : String) : String :=
  if s = "" then "" else ⟨smartFormatL s.data⟩

/-- A saved note: `{ text, createdAt }` (src/script.js lines 252-255).
`createdAt` is the display-formatted creation time, kept opaque. -/
structure Note where
  text : String
  createdAt : String
deriving DecidableEq, Repr

/-- One recognition result fragment: `res[0].transcript` and `res.isFinal`. -/
structure Fragment where
  transcript : String
  isFinal : Bool
deriving DecidableEq, Repr

/-- The module-level mutable state of src/script.js: `finalText` (line 23),
the textarea contents `textOutput.value` as `display`, and `notes` (line 173). -/
structure PadState where
  finalText : String
  display : String
  notes : List Note
deriving DecidableEq, Repr

/-- Committing one final fragment (src/script.js lines 113-118): trim the
transcript, append it to `finalText` with a separating space unless
`finalText` is empty, then `smartFormat` the whole string. -/
def commitFinal (ft : String) (raw : String) : String :=
  let piece := jsTrim raw
  smartFormat (if ft = "" then piece else ft ++ " " ++ piece)

/-- The loop of `recognition.onresult` (lines 110-122): final fragments are
committed in order; non-final transcripts are concatenated into `interimRaw`.
Returns the new `finalText` and the accumulated `interimRaw`. -/
def processFrags : String → String → List Fragment → String × String
  | ft, acc, [] => (ft, acc)
  | ft, acc, f :: fs =>
    if f.isFinal then processFrags (commitFinal ft f.transcript) acc fs
    else processFrags ft (acc ++ f.transcript) fs

/-- The whole `recognition.onresult` handler (lines 109-136): commit the final
fragments, then display either `smartFormat` of `finalText` joined with the
interim text, or `finalText` itself when there is no interim text. -/
def applyBatch (st : PadState) (frags : List Fragment) : PadState :=
  let p := processFrags st.finalText "" frags
  let ft := p.1
  let interimRaw := p.2
  let display :=
    if interimRaw = "" then ft
    else smartFormat (if ft = "" then interimRaw else ft ++ " " ++ interimRaw)
  { st with finalText := ft, display := display }

/-- `resetTranscript` (lines 166-170): clear `finalText` and the textarea. -/
def resetTranscript (st : PadState) : PadState :=
  { st with finalText := "", display := "" }

/-- `startListening` (lines 263-272): seed `finalText` from the textarea,
`finalText = smartFormat(textOutput.value.trim())`; the textarea itself is
not changed. -/
def startListening (st : PadState) : PadState :=
  { st with finalText := smartFormat (jsTrim st.display) }

/-- The error signalled when saving with nothing to save (the
"Nothing to save" branch of `saveCurrentNote`, lines 247-249). -/
inductive SaveError
  | emptyText
deriving DecidableEq, Repr

/-- `saveCurrentNote` (lines 245-260) on its inputs: trim the textarea text;
if empty, fail leaving the list unchanged; otherwise `unshift` a new note to
the head.  Returns the updated list and the outcome. -/
def saveOp (text ts : String) (notes : List Note) : List Note × Except SaveError Note :=
  let t := jsTrim text
  if t = "" then (notes, .error .emptyText)
  else ((⟨t, ts⟩ : Note) :: notes, .ok ⟨t, ts⟩)

/-- `saveCurrentNote` as a state transformer: it reads `textOutput.value`. -/
def saveNote (st : PadState) (ts : String) : PadState :=
  { st with notes := (saveOp st.display ts st.notes).1 }

/-- The delete-button handler's `notes.splice(index, 1)` (line 226): for an
index within bounds it removes exactly that element; past the end it removes
nothing. -/
def deleteNote (i : Nat) (notes : List Note) : List Note :=
  notes.take i ++ notes.drop (i + 1)

/-- Deletion as a state transformer. -/
def deletePad (st : PadState) (i : Nat) : PadState :=
  { st with notes := deleteNote i st.notes }

/-- The "Send to pad" handler (lines 210-221): put the note's text into the
textarea and set `finalText = note.text` directly, with no normalization.
For an index with no note (no such button exists) nothing happens. -/
def sendToPad (st : PadState) (i : Nat) : PadState :=
  match st.notes.get? i with
  | some n => { st with finalText := n.text, display := n.text }
  | none => st

/-- States reachable from the initial state (`finalText = ""`, empty textarea,
no notes) by the public operations: fragment batches, seeding at the start of
recording, clearing, saving, deleting, and sending a note back to the pad. -/
inductive Reachable : PadState → Prop
  | init : Reachable ⟨"", "", []⟩
  | batch (st : PadState) (frags : List Fragment) :
      Reachable st → Reachable (applyBatch st frags)
  | seed (st : PadState) : Reachable st → Reachable (startListening st)
  | reset (st : PadState) : Reachable st → Reachable (resetTranscript st)
  | save (st : PadState) (ts : String) : Reachable st → Reachable (saveNote st ts)
  | del (st : PadState) (i : Nat) : Reachable st → Reachable (deletePad st i)
  | toPad (st : PadState) (i : Nat) : Reachable st → Reachable (sendToPad st i)

/-- Does the pattern start with a lowercase letter?  All keyword alternatives do. -/
def headIsLower : List Char → Bool
  | [] => false
  | c :: _ => isLowerAZ c

/-- Does the pattern end with a lowercase letter?  All keyword alternatives do. -/
def lastIsLower : List Char → Bool
  | [] => false
  | [c] => isLowerAZ c
  | _ :: c :: cs => lastIsLower (c :: cs)

theorem data_append (s t : String) : (s ++ t).data = s.data ++ t.data := by
  cases s; cases t; rfl

theorem append_empty_str (s : String) : s ++ "" = s := by
  cases s with
  | mk l => exact congrArg String.mk (List.append_nil l)

theorem empty_append_str (s : String) : "" ++ s = s := by
  cases s with
  | mk l => exact congrArg String.mk (List.nil_append l)

theorem lastIsLower_cons (p q : Char) (ps : List Char) :
    lastIsLower (p :: q :: ps) = lastIsLower (q :: ps) := rfl

theorem matchCI_length_le (a : List Char) : ∀ l, matchCI a l = true → a.length ≤ l.length := by
  induction a with
  | nil => intro l _; simp
  | cons p ps ih =>
    intro l h
    cases l with
    | nil => simp [matchCI] at h
    | cons c cs =>
      simp only [matchCI, Bool.and_eq_true] at h
      simpa using ih cs h.2

theorem isLowerAZ_ne_space {c : Char} (h : isLowerAZ c = true) : (c == ' ') = false := by
  cases hc : c == ' ' with
  | false => rfl
  | true =>
    rw [beq_iff_eq] at hc
    subst hc
    exact absurd h (by decide)

theorem lowerChar_space : lowerChar ' ' = ' ' := by decide

theorem matchCI_append_space (a : List Char) : ∀ l, lastIsLower a = true →
    matchCI a (l ++ [' ']) = matchCI a l := by
  induction a with
  | nil => intro l _; rfl
  | cons p ps ih =>
    intro l h
    cases l with
    | nil =>
      show matchCI (p :: ps) [' '] = false
      cases ps with
      | nil =>
        have hp : isLowerAZ p = true := h
        simp [matchCI, lowerChar_space, isLowerAZ_ne_space hp]
      | cons q qs =>
        simp [matchCI]
    | cons c cs =>
      show (p == lowerChar c && matchCI ps (cs ++ [' '])) = (p == lowerChar c && matchCI ps cs)
      cases ps with
      | nil => rfl
      | cons q qs =>
        rw [ih cs (by rw [lastIsLower_cons] at h; exact h)]

theorem cond_append_space (a l : List Char) (h : lastIsLower a = true) :
    (matchCI a (l ++ [' ']) && noWordAt (l ++ [' ']) a.length)
      = (matchCI a l && noWordAt l a.length) := by
  rw [matchCI_append_space a l h]
  cases hm : matchCI a l with
  | false => simp
  | true =>
    have hle : a.length ≤ l.length := matchCI_length_le a l hm
    simp only [Bool.true_and]
    have hd : (l ++ [' ']).drop a.length = l.drop a.length ++ [' '] :=
      List.drop_append_of_le_length hle
    unfold noWordAt
    rw [hd]
    cases hdl : l.drop a.length with
    | nil => simp [isWordChar, isLowerAZ, isUpperAZ]
    | cons d ds => simp

theorem matchCI_space_cons (a : List Char) (h : headIsLower a = true) (t : List Char) :
    matchCI a (' ' :: t) = false := by
  cases a with
  | nil => simp [headIsLower] at h
  | cons p ps =>
    have hp : isLowerAZ p = true := h
    simp [matchCI, lowerChar_space, isLowerAZ_ne_space hp]

theorem findMatch_true (alts : List (List Char)) (l : List Char) :
    findMatch alts true l = none := rfl

theorem findMatch_false (alts : List (List Char)) (l : List Char) :
    findMatch alts false l = (alts.findSome? fun a =>
      if matchCI a l && noWordAt l a.length then some a.length else none) := rfl

theorem findMatch_append_space (alts : List (List Char))
    (h : ∀ a ∈ alts, lastIsLower a = true) (prevW : Bool) (l : List Char) :
    findMatch alts prevW (l ++ [' ']) = findMatch alts prevW l := by
  cases prevW with
  | true => rfl
  | false =>
    rw [findMatch_false, findMatch_false]
    induction alts with
    | nil => rfl
    | cons a alts ih =>
      simp only [List.findSome?_cons]
      rw [cond_append_space a l (h a (by simp))]
      cases (matchCI a l && noWordAt l a.length) with
      | true => rfl
      | false => exact ih (fun b hb => h b (by simp [hb]))

theorem findMatch_space (alts : List (List Char))
    (h : ∀ a ∈ alts, headIsLower a = true) (prevW : Bool) (t : List Char) :
    findMatch alts prevW (' ' :: t) = none := by
  cases prevW with
  | true => rfl
  | false =>
    rw [findMatch_false]
    induction alts with
    | nil => rfl
    | cons a alts ih =>
      simp only [List.findSome?_cons]
      rw [matchCI_space_cons a (h a (by simp)) t]
      simp only [Bool.false_and, if_neg]
      exact ih (fun b hb => h b (by simp [hb]))

theorem findMatch_le (alts : List (List Char)) (prevW : Bool) (l : List Char) (n : Nat)
    (h : findMatch alts prevW l = some n) : n ≤ l.length := by
  cases prevW with
  | true => rw [findMatch_true] at h; cases h
  | false =>
    rw [findMatch_false] at h
    induction alts with
    | nil => cases h
    | cons a alts ih =>
      simp only [List.findSome?_cons] at h
      by_cases hc : (matchCI a l && noWordAt l a.length) = true
      · rw [if_pos hc] at h
        simp only [Option.some.injEq] at h
        subst h
        exact matchCI_length_le a l (((Bool.and_eq_true _ _).mp hc).1)
      · rw [if_neg hc] at h
        exact ih h

theorem subA_nil (alts : List (List Char)) (repl : List Char) (k : Nat) (prevW : Bool) :
    subA alts repl k prevW [] = [] := by
  cases k <;> rfl

theorem subA_skip (alts : List (List Char)) (repl : List Char) (k : Nat) (prevW : Bool)
    (c : Char) (cs : List Char) :
    subA alts repl (k + 1) prevW (c :: cs) = subA alts repl k true cs := rfl

theorem subA_zero_cons (alts : List (List Char)) (repl : List Char) (prevW : Bool)
    (c : Char) (cs : List Char) :
    subA alts repl 0 prevW (c :: cs) =
      match findMatch alts prevW (c :: cs) with
      | some n => repl ++ subA alts repl (n - 1) true cs
      | none => c :: subA alts repl 0 (isWordChar c) cs := rfl

theorem subA_append_space (alts : List (List Char)) (repl : List Char)
    (hh : ∀ a ∈ alts, headIsLower a = true) (hl : ∀ a ∈ alts, lastIsLower a = true) :
    ∀ l k prevW, k ≤ l.length →
      subA alts repl k prevW (l ++ [' ']) = subA alts repl k prevW l ++ [' '] := by
  intro l
  induction l with
  | nil =>
    intro k prevW hk
    have hk0 : k = 0 := Nat.le_zero.mp (by simpa using hk)
    subst hk0
    show subA alts repl 0 prevW [' '] = [' ']
    rw [subA_zero_cons, findMatch_space alts hh prevW []]
    simp [subA_nil]
  | cons c cs ih =>
    intro k prevW hk
    cases k with
    | succ k0 =>
      show subA alts repl (k0 + 1) prevW (c :: (cs ++ [' '])) =
        subA alts repl (k0 + 1) prevW (c :: cs) ++ [' ']
      rw [subA_skip, subA_skip]
      exact ih k0 true (Nat.le_of_succ_le_succ (by simpa using hk))
    | zero =>
      show subA alts repl 0 prevW (c :: (cs ++ [' '])) = subA alts repl 0 prevW (c :: cs) ++ [' ']
      have hfm : findMatch alts prevW (c :: (cs ++ [' '])) = findMatch alts prevW (c :: cs) := by
        have := findMatch_append_space alts hl prevW (c :: cs)
        simpa using this
      rw [subA_zero_cons, subA_zero_cons, hfm]
      cases hm : findMatch alts prevW (c :: cs) with
      | some n =>
        have hn : n ≤ cs.length + 1 := by
          have := findMatch_le alts prevW (c :: cs) n hm
          simpa using this
        dsimp only
        rw [ih (n - 1) true (by omega)]
        simp
      | none =>
        dsimp only
        rw [ih 0 (isWordChar c) (by simp)]
        simp

theorem subOne_append_space (alts : List (List Char)) (repl : List Char)
    (hh : ∀ a ∈ alts, headIsLower a = true) (hl : ∀ a ∈ alts, lastIsLower a = true)
    (l : List Char) :
    subOne alts repl (l ++ [' ']) = subOne alts repl l ++ [' '] :=
  subA_append_space alts repl hh hl l 0 false (by simp)

theorem applySubs_append_space (l : List Char) :
    applySubs (l ++ [' ']) = applySubs l ++ [' '] := by
  unfold applySubs
  rw [subOne_append_space commaPat [','] (by decide) (by decide) l]
  rw [subOne_append_space periodPat ['.'] (by decide) (by decide) _]
  rw [subOne_append_space questionPat ['?'] (by decide) (by decide) _]
  rw [subOne_append_space exclamPat ['!'] (by decide) (by decide) _]
  rw [subOne_append_space newlinePat ['\n'] (by decide) (by decide) _]

theorem afterSpacesPunct_append_space (cs : List Char) :
    afterSpacesPunct (cs ++ [' ']) = afterSpacesPunct cs := by
  induction cs with
  | nil => rfl
  | cons c cs ih =>
    show afterSpacesPunct (c :: (cs ++ [' '])) = afterSpacesPunct (c :: cs)
    unfold afterSpacesPunct
    cases isSpaceTab c with
    | true => simpa using ih
    | false => simp

theorem rmSpaceBefore_append_space (l : List Char) :
    rmSpaceBefore (l ++ [' ']) = rmSpaceBefore l ++ [' '] := by
  induction l with
  | nil => rfl
  | cons c cs ih =>
    show rmSpaceBefore (c :: (cs ++ [' '])) = rmSpaceBefore (c :: cs) ++ [' ']
    unfold rmSpaceBefore
    rw [afterSpacesPunct_append_space cs]
    cases (isSpaceTab c && afterSpacesPunct cs) with
    | true => simpa using ih
    | false => simpa using ih

theorem headNotWS_append_space (cs : List Char) :
    headNotWS (cs ++ [' ']) = headNotWS cs := by
  cases cs with
  | nil => rfl
  | cons d ds => rfl

theorem saAux_append_space (l : List Char) :
    ∀ b, saAux b (l ++ [' ']) = saAux b l ++ [' '] := by
  induction l with
  | nil =>
    intro b
    show saAux b [' '] = [' ']
    unfold saAux
    simp [saAux, isPunct]
  | cons c cs ih =>
    intro b
    show saAux b (c :: (cs ++ [' '])) = saAux b (c :: cs) ++ [' ']
    unfold saAux
    rw [headNotWS_append_space cs]
    cases (!b && isPunct c && headNotWS cs) with
    | true => simpa using ih true
    | false => simpa using ih false

theorem spaceAfter_append_space (l : List Char) :
    spaceAfter (l ++ [' ']) = spaceAfter l ++ [' '] :=
  saAux_append_space l false

theorem rtrim_append_ws (c : Char) (h : isWS c = true) (l : List Char) :
    rtrim (l ++ [c]) = rtrim l := by
  unfold rtrim
  rw [List.reverse_append]
  simp [List.dropWhile, h]

theorem jsTrimL_cons_ws (c : Char) (h : isWS c = true) (l : List Char) :
    jsTrimL (c :: l) = jsTrimL l := by
  unfold jsTrimL ltrim
  simp [List.dropWhile, h]

theorem jsTrimL_append_space (l : List Char) : jsTrimL (l ++ [' ']) = jsTrimL l := by
  induction l with
  | nil => rfl
  | cons c cs ih =>
    cases hws : isWS c with
    | true =>
      rw [show (c :: cs) ++ [' '] = c :: (cs ++ [' ']) from rfl]
      rw [jsTrimL_cons_ws c hws, jsTrimL_cons_ws c hws]
      exact ih
    | false =>
      show jsTrimL (c :: (cs ++ [' '])) = jsTrimL (c :: cs)
      unfold jsTrimL ltrim
      simp only [List.dropWhile, hws]
      have : rtrim ((c :: cs) ++ [' ']) = rtrim (c :: cs) := rtrim_append_ws ' ' (by decide) _
      simpa using this

theorem plt_nil (buf : List Char) : plt buf [] = jsTrimL buf.reverse := rfl

theorem plt_cons (buf : List Char) (c : Char) (cs : List Char) :
    plt buf (c :: cs) =
      if c = '\n' then jsTrimL buf.reverse ++ '\n' :: plt [] cs else plt (c :: buf) cs := rfl

theorem plt_append_space (l : List Char) :
    ∀ buf, plt buf (l ++ [' ']) = plt buf l := by
  induction l with
  | nil =>
    intro buf
    show plt buf [' '] = plt buf []
    rw [plt_cons, if_neg (by decide : ¬(' ' = '\n')), plt_nil, plt_nil, List.reverse_cons]
    exact jsTrimL_append_space buf.reverse
  | cons c cs ih =>
    intro buf
    show plt buf (c :: (cs ++ [' '])) = plt buf (c :: cs)
    rw [plt_cons, plt_cons]
    by_cases hc : c = '\n'
    · simp only [if_pos hc]
      rw [ih]
    · simp only [if_neg hc]
      rw [ih]

theorem perLineTrim_append_space (l : List Char) :
    perLineTrim (l ++ [' ']) = perLineTrim l :=
  plt_append_space l []

theorem smartFormatL_append_space (l : List Char) :
    smartFormatL (l ++ [' ']) = smartFormatL l := by
  unfold smartFormatL
  rw [applySubs_append_space, rmSpaceBefore_append_space, spaceAfter_append_space,
    perLineTrim_append_space]

theorem smartFormat_append_space (s : String) : smartFormat (s ++ " ") = smartFormat s := by
  by_cases hs : s = ""
  · subst hs
    rw [empty_append_str]
    decide
  · have hne : s ++ " " ≠ "" := by
      intro hcon
      have : (s ++ " ").data = ([] : List Char) := by rw [hcon]
      rw [data_append] at this
      simp at this
    unfold smartFormat
    rw [if_neg hne, if_neg hs]
    have : (s ++ " ").data = s.data ++ [' '] := by rw [data_append]
    rw [this, smartFormatL_append_space]

theorem processFrags_cons (ft acc : String) (f : Fragment) (fs : List Fragment) :
    processFrags ft acc (f :: fs) =
      if f.isFinal then processFrags (commitFinal ft f.transcript) acc fs
      else processFrags ft (acc ++ f.transcript) fs := rfl

theorem processFrags_all_final (l : List Fragment) (h : ∀ g ∈ l, g.isFinal = true) :
    ∀ ft acc, processFrags ft acc l =
      (l.foldl (fun a g => commitFinal a g.transcript) ft, acc) := by
  induction l with
  | nil => intro ft acc; rfl
  | cons g gs ih =>
    intro ft acc
    rw [processFrags_cons, if_pos (h g (by simp))]
    rw [ih (fun b hb => h b (by simp [hb])) (commitFinal ft g.transcript) acc]
    rfl

theorem processFrags_append_interim (l : List Fragment) (f : Fragment)
    (h : ∀ g ∈ l, g.isFinal = true) (hf : f.isFinal = false) :
    ∀ ft acc, processFrags ft acc (l ++ [f]) =
      (l.foldl (fun a g => commitFinal a g.transcript) ft, acc ++ f.transcript) := by
  induction l with
  | nil =>
    intro ft acc
    show processFrags ft acc [f] = (ft, acc ++ f.transcript)
    rw [processFrags_cons, if_neg (by simp [hf])]
    rfl
  | cons g gs ih =>
    intro ft acc
    show processFrags ft acc (g :: (gs ++ [f])) = _
    rw [processFrags_cons, if_pos (h g (by simp))]
    rw [ih (fun b hb => h b (by simp [hb])) (commitFinal ft g.transcript) acc]
    rfl

theorem applyBatch_all_final (st : PadState) (l : List Fragment)
    (h : ∀ g ∈ l, g.isFinal = true) :
    applyBatch st l = { st with
      finalText := l.foldl (fun a g => commitFinal a g.transcript) st.finalText,
      display := l.foldl (fun a g => commitFinal a g.transcript) st.finalText } := by
  unfold applyBatch
  rw [processFrags_all_final l h st.finalText ""]
  dsimp only
  rw [if_pos rfl]

theorem applyBatch_trailing_interim (st : PadState) (finals : List Fragment) (f : Fragment)
    (hall : ∀ g ∈ finals, g.isFinal = true) (hf : f.isFinal = false) (hne : f.transcript ≠ "") :
    applyBatch st (finals ++ [f]) = { st with
      finalText := finals.foldl (fun a g => commitFinal a g.transcript) st.finalText,
      display := smartFormat
        (if finals.foldl (fun a g => commitFinal a g.transcript) st.finalText = ""
         then f.transcript
         else finals.foldl (fun a g => commitFinal a g.transcript) st.finalText
           ++ " " ++ f.transcript) } := by
  unfold applyBatch
  rw [processFrags_append_interim finals f hall hf st.finalText ""]
  rw [empty_append_str]
  dsimp only
  rw [if_neg hne]

theorem applyBatch_single_final (st : PadState) (f : Fragment) (hf : f.isFinal = true) :
    (applyBatch st [f]).finalText = commitFinal st.finalText f.transcript := by
  rw [applyBatch_all_final st [f] (by simpa using hf)]
  rfl

/-- C1 (code bug): the spec's invariant "authoritativeText is always already
normalized" is broken by the code: from the initial state, one final fragment
`"newline x"` leaves authoritative text `"x"`, but `smartFormat "x" = "X"`.
`smartFormat` trims the string only after sentence capitalization, so the
leading line break produced by the `newline` keyword hides the first letter
from the capitalization pass and is then trimmed away. -/
theorem c1_normalized_invariant_fails :
    Reachable (applyBatch ⟨"", "", []⟩ [⟨"newline x", true⟩]) ∧
    (applyBatch ⟨"", "", []⟩ [⟨"newline x", true⟩]).finalText = "x" ∧
    smartFormat "x" = "X" ∧
    smartFormat (applyBatch ⟨"", "", []⟩ [⟨"newline x", true⟩]).finalText
      ≠ (applyBatch ⟨"", "", []⟩ [⟨"newline x", true⟩]).finalText :=
  ⟨Reachable.batch _ _ Reachable.init, by decide, by decide, by decide⟩

/-- C2: a batch of final fragments followed by one non-final fragment with
non-empty transcript leaves the authoritative text exactly as the final
fragments alone would, and displays the normalization of the authoritative
text joined to the interim transcript with one space (no separator when the
authoritative text is empty); in particular from authoritative text `"Hello"`
an interim `"there"` displays `"Hello there"` while `"Hello"` stays. -/
theorem c2_interim_is_preview_only (st : PadState) (finals : List Fragment) (f : Fragment)
    (hall : ∀ g ∈ finals, g.isFinal = true) (hf : f.isFinal = false)
    (hne : f.transcript ≠ "") :
    (applyBatch st (finals ++ [f])).finalText = (applyBatch st finals).finalText ∧
    (applyBatch st (finals ++ [f])).display =
      smartFormat (if (applyBatch st finals).finalText = "" then f.transcript
        else (applyBatch st finals).finalText ++ " " ++ f.transcript) ∧
    (applyBatch ⟨"Hello", "Hello", []⟩ [⟨"there", false⟩]).display = "Hello there" ∧
    (applyBatch ⟨"Hello", "Hello", []⟩ [⟨"there", false⟩]).finalText = "Hello" := by
  rw [applyBatch_trailing_interim st finals f hall hf hne, applyBatch_all_final st finals hall]
  exact ⟨rfl, rfl, by decide, by decide⟩

/-- Witness for C2 at the concrete instance from the specification. -/
theorem c2_interim_is_preview_only_witness :
    (applyBatch ⟨"Hello", "Hello", []⟩ [⟨"there", false⟩]).display = "Hello there" ∧
    (applyBatch ⟨"Hello", "Hello", []⟩ [⟨"there", false⟩]).finalText = "Hello" := by
  have h := c2_interim_is_preview_only ⟨"Hello", "Hello", []⟩ [] ⟨"there", false⟩
    (by simp) rfl (by decide)
  exact ⟨h.2.2.1, h.2.2.2⟩

/-- C3 (code bug): the normalizer is not idempotent: `smartFormat "\nx" = "x"`
but `smartFormat "x" = "X"`.  The final trim runs after capitalization, so a
string whose trimmed form starts with a lowercase letter hidden behind a
leading line break violates `normalize (normalize s) = normalize s`. -/
theorem c3_normalize_not_idempotent :
    smartFormat "\nx" = "x" ∧ smartFormat "x" = "X" ∧
    smartFormat (smartFormat "\nx") ≠ smartFormat "\nx" :=
  ⟨by decide, by decide, by decide⟩

/-- C4 counterexample: sending a saved note back to the pad does not
normalize.  The reachable note text `"x"` (saved after committing the final
fragment `"newline x"`) is sent to the pad: the authoritative text becomes
`"x"`, not `smartFormat "x" = "X"`. -/
theorem c4_counterexample :
    (saveNote (applyBatch ⟨"", "", []⟩ [⟨"newline x", true⟩]) "10:00").notes.map Note.text
      = ["x"] ∧
    (sendToPad (saveNote (applyBatch ⟨"", "", []⟩ [⟨"newline x", true⟩]) "10:00") 0).finalText
      = "x" ∧
    smartFormat "x" = "X" ∧ ("x" : String) ≠ "X" :=
  ⟨by decide, by decide, by decide, by decide⟩

/-- C4 amended: seeding when recording starts sets the authoritative text to
`smartFormat` of the trimmed displayed text, but sending a note back to the
pad copies the note's text into the authoritative text verbatim, with no
normalization. -/
theorem c4_seed_vs_sendToPad (st : PadState) (i : Nat) (n : Note)
    (h : st.notes.get? i = some n) :
    (startListening st).finalText = smartFormat (jsTrim st.display) ∧
    (sendToPad st i).finalText = n.text ∧
    (sendToPad st i).display = n.text := by
  refine ⟨rfl, ?_, ?_⟩ <;> (unfold sendToPad; rw [h])

/-- Witness for the amended C4 at a concrete state and note. -/
theorem c4_seed_vs_sendToPad_witness :
    (startListening ⟨"", "pad text", [⟨"hello", "09:00"⟩]⟩).finalText
      = smartFormat (jsTrim "pad text") ∧
    (sendToPad ⟨"", "pad text", [⟨"hello", "09:00"⟩]⟩ 0).finalText = "hello" ∧
    (sendToPad ⟨"", "pad text", [⟨"hello", "09:00"⟩]⟩ 0).display = "hello" :=
  c4_seed_vs_sendToPad ⟨"", "pad text", [⟨"hello", "09:00"⟩]⟩ 0 ⟨"hello", "09:00"⟩ rfl

/-- C5 counterexample: saving snapshots the textarea, not the authoritative
text: in the reachable state displaying the interim preview `"Hello there"`
over authoritative text `"Hello"`, saving stores `"Hello there"`. -/
theorem c5_counterexample :
    (saveNote (applyBatch (applyBatch ⟨"", "", []⟩ [⟨"Hello", true⟩]) [⟨"there", false⟩])
        "12:00").notes.map Note.text = ["Hello there"] ∧
    jsTrim (applyBatch (applyBatch ⟨"", "", []⟩ [⟨"Hello", true⟩])
        [⟨"there", false⟩]).finalText = "Hello" ∧
    ("Hello there" : String) ≠ "Hello" :=
  ⟨by decide, by decide, by decide⟩

/-- C5 amended: a successful save stores the trimmed current display text — a
snapshot of the textarea surface, which equals the trimmed authoritative text
exactly when the display shows the authoritative text. -/
theorem c5_save_snapshots_display (st : PadState) (ts : String)
    (h : jsTrim st.display ≠ "") :
    (saveNote st ts).notes = (⟨jsTrim st.display, ts⟩ : Note) :: st.notes ∧
    (st.display = st.finalText →
      (saveNote st ts).notes = (⟨jsTrim st.finalText, ts⟩ : Note) :: st.notes) := by
  have h1 : (saveNote st ts).notes = (⟨jsTrim st.display, ts⟩ : Note) :: st.notes := by
    unfold saveNote saveOp
    rw [if_neg h]
  exact ⟨h1, fun he => by rw [← he]; exact h1⟩

/-- Witness for the amended C5 at a concrete state. -/
theorem c5_save_snapshots_display_witness :
    (saveNote ⟨"Hello", "Hello there", []⟩ "12:00").notes
      = (⟨jsTrim "Hello there", "12:00"⟩ : Note) :: [] :=
  (c5_save_snapshots_display ⟨"Hello", "Hello there", []⟩ "12:00" (by decide)).1

/-- C6: committing one final fragment trims its transcript, joins it to the
authoritative text with one space (none when the authoritative text is
empty), and normalizes the whole result; in particular `"Hello"` plus the
final fragment `"comma how are you question mark"` gives
`"Hello, how are you?"`. -/
theorem c6_final_commit (st : PadState) (f : Fragment) (hf : f.isFinal = true)
    (hne : jsTrim f.transcript ≠ "") :
    (applyBatch st [f]).finalText =
      smartFormat (if st.finalText = "" then jsTrim f.transcript
        else st.finalText ++ " " ++ jsTrim f.transcript) ∧
    (applyBatch ⟨"Hello", "Hello", []⟩
        [⟨"comma how are you question mark", true⟩]).finalText
      = "Hello, how are you?" := by
  refine ⟨?_, by decide⟩
  rw [applyBatch_single_final st f hf]
  rfl

/-- Witness for C6 at the concrete instance from the specification. -/
theorem c6_final_commit_witness :
    (applyBatch ⟨"Hello", "Hello", []⟩
        [⟨"comma how are you question mark", true⟩]).finalText
      = "Hello, how are you?" :=
  (c6_final_commit ⟨"Hello", "Hello", []⟩ ⟨"comma how are you question mark", true⟩
    rfl (by decide)).2

/-- C7 counterexample: a final fragment trimming to empty does not always
leave the authoritative text unchanged: in the reachable state with the
(unnormalized) authoritative text `"x"`, committing `" "` renormalizes it to
`"X"`. -/
theorem c7_counterexample :
    (applyBatch ⟨"", "", []⟩ [⟨"newline x", true⟩]).finalText = "x" ∧
    jsTrim " " = "" ∧
    (applyBatch (applyBatch ⟨"", "", []⟩ [⟨"newline x", true⟩]) [⟨" ", true⟩]).finalText
      = "X" ∧
    ("X" : String) ≠ "x" :=
  ⟨by decide, by decide, by decide, by decide⟩

/-- C7 amended: a batch with one final fragment whose text trims to empty
sets the authoritative text to its own normalization — so it is unchanged
exactly on already-normalized authoritative text, and no separator is ever
committed. -/
theorem c7_empty_final_renormalizes (st : PadState) (f : Fragment)
    (hf : f.isFinal = true) (h : jsTrim f.transcript = "") :
    (applyBatch st [f]).finalText = smartFormat st.finalText ∧
    (smartFormat st.finalText = st.finalText →
      (applyBatch st [f]).finalText = st.finalText) := by
  have h1 : (applyBatch st [f]).finalText = commitFinal st.finalText f.transcript :=
    applyBatch_single_final st f hf
  have h2 : commitFinal st.finalText f.transcript = smartFormat st.finalText := by
    unfold commitFinal
    rw [h]
    show smartFormat (if st.finalText = "" then "" else st.finalText ++ " " ++ "")
      = smartFormat st.finalText
    by_cases hft : st.finalText = ""
    · rw [if_pos hft, hft]
    · rw [if_neg hft, append_empty_str, smartFormat_append_space]
  exact ⟨h1.trans h2, fun hn => (h1.trans h2).trans hn⟩

/-- Witness for the amended C7 at a normalized concrete state. -/
theorem c7_empty_final_renormalizes_witness :
    (applyBatch ⟨"Hello", "Hello", []⟩ [⟨" ", true⟩]).finalText = smartFormat "Hello" ∧
    (smartFormat "Hello" = "Hello" →
      (applyBatch ⟨"Hello", "Hello", []⟩ [⟨" ", true⟩]).finalText = "Hello") :=
  c7_empty_final_renormalizes ⟨"Hello", "Hello", []⟩ ⟨" ", true⟩ rfl (by decide)

/-- C8: saving when the trimmed input text is empty fails with the
empty-text error and leaves the note collection (and its count) unchanged. -/
theorem c8_save_empty_fails (text ts : String) (notes : List Note)
    (h : jsTrim text = "") :
    saveOp text ts notes = (notes, Except.error SaveError.emptyText) ∧
    (saveOp text ts notes).1.length = notes.length := by
  unfold saveOp
  rw [if_pos h]
  exact ⟨rfl, rfl⟩

/-- Witness for C8 on a whitespace-only input. -/
theorem c8_save_empty_fails_witness :
    saveOp "   " "12:00" [⟨"a", "b"⟩] = ([⟨"a", "b"⟩], Except.error SaveError.emptyText) ∧
    (saveOp "   " "12:00" [⟨"a", "b"⟩]).1.length = [(⟨"a", "b"⟩ : Note)].length :=
  c8_save_empty_fails "   " "12:00" [⟨"a", "b"⟩] (by decide)

/-- C9: deleting past the end of the note list leaves it unchanged; deleting
at a valid index removes exactly that note, shifting the later notes down by
one and leaving the earlier ones in place — relative order is preserved. -/
theorem c9_delete_bounds (i : Nat) (notes : List Note) :
    (notes.length ≤ i → deleteNote i notes = notes) ∧
    (i < notes.length →
      (deleteNote i notes).length + 1 = notes.length ∧
      (∀ j, j < i → (deleteNote i notes).get? j = notes.get? j) ∧
      (∀ j, i ≤ j → (deleteNote i notes).get? j = notes.get? (j + 1))) := by
  constructor
  · intro hle
    unfold deleteNote
    rw [List.take_of_length_le hle, List.drop_eq_nil_of_le (by omega)]
    simp
  · intro hlt
    have htl : (notes.take i).length = i := by
      rw [List.length_take]
      omega
    refine ⟨?_, ?_, ?_⟩
    · unfold deleteNote
      rw [List.length_append, htl, List.length_drop]
      omega
    · intro j hj
      unfold deleteNote
      rw [List.get?_append (by omega), List.get?_take hj]
    · intro j hij
      unfold deleteNote
      rw [List.get?_append_right (by omega), List.get?_drop, htl]
      congr 1
      omega

/-- Witness for C9 at a concrete three-note list, in and out of bounds. -/
theorem c9_delete_bounds_witness :
    (deleteNote 1 [⟨"c", "3"⟩, ⟨"b", "2"⟩, ⟨"a", "1"⟩]).length + 1
        = [(⟨"c", "3"⟩ : Note), ⟨"b", "2"⟩, ⟨"a", "1"⟩].length ∧
    deleteNote 5 [(⟨"c", "3"⟩ : Note), ⟨"b", "2"⟩, ⟨"a", "1"⟩]
        = [⟨"c", "3"⟩, ⟨"b", "2"⟩, ⟨"a", "1"⟩] := by
  constructor
  · exact ((c9_delete_bounds 1 [⟨"c", "3"⟩, ⟨"b", "2"⟩, ⟨"a", "1"⟩]).2 (by decide)).1
  · exact (c9_delete_bounds 5 [⟨"c", "3"⟩, ⟨"b", "2"⟩, ⟨"a", "1"⟩]).1 (by decide)

/-- C10: each successful save inserts at the head, so saving A then B then C
leaves the notes in the order [C, B, A]. -/
theorem c10_save_order (A B C ts1 ts2 ts3 : String)
    (hA : jsTrim A = A) (hB : jsTrim B = B) (hC : jsTrim C = C)
    (hA2 : A ≠ "") (hB2 : B ≠ "") (hC2 : C ≠ "") :
    ((saveOp C ts3 ((saveOp B ts2 ((saveOp A ts1 []).1)).1)).1).map Note.text
      = [C, B, A] := by
  have s1 : (saveOp A ts1 []).1 = [⟨A, ts1⟩] := by
    unfold saveOp
    rw [hA, if_neg hA2]
  have s2 : (saveOp B ts2 [(⟨A, ts1⟩ : Note)]).1 = [⟨B, ts2⟩, ⟨A, ts1⟩] := by
    unfold saveOp
    rw [hB, if_neg hB2]
  have s3 : (saveOp C ts3 [(⟨B, ts2⟩ : Note), ⟨A, ts1⟩]).1
      = [⟨C, ts3⟩, ⟨B, ts2⟩, ⟨A, ts1⟩] := by
    unfold saveOp
    rw [hC, if_neg hC2]
  rw [s1, s2, s3]
  rfl

/-- Witness for C10 at three concrete texts. -/
theorem c10_save_order_witness :
    ((saveOp "C" "3" ((saveOp "B" "2" ((saveOp "A" "1" []).1)).1)).1).map Note.text
      = ["C", "B", "A"] :=
  c10_save_order "A" "B" "C" "1" "2" "3" (by decide) (by decide) (by decide)
    (by decide) (by decide) (by decide)

end STTPad
